import Mathlib

/-!
Verification of the MegaHash hash table (src/MegaHash.h) against its
natural-language specification.

The embedding models machine integers as `Nat` with explicit reductions
modulo `2 ^ 16` (the `BH_KLEN_T = uint16_t` key-length type) and
`2 ^ 32` (the `BH_LEN_T = uint32_t` value-length type and the 32-bit
DJB2 hash).  Memory reads and writes through `uint16_t*` / `uint32_t*`
casts are modelled for a little-endian target (byte `i` of a stored
word is `n / 256 ^ i % 256`), which is the native construction order
of the hash bytes on the platforms the code targets.
-/

namespace MegaHash

/-- `BH_ERR`: error occurred during operation (src/MegaHash.h line 31). -/
def BH_ERR : Nat := 0

/-- `BH_OK`: result was okay, used only in fetch (line 33). -/
def BH_OK : Nat := 1

/-- `BH_ADD`: result was add, key was unique (line 35). -/
def BH_ADD : Nat := 1

/-- `BH_REPLACE`: result was replace, key existed (line 37). -/
def BH_REPLACE : Nat := 2

/-- `BH_KLEN_SIZE = sizeof(uint16_t)` (line 18). -/
def BH_KLEN_SIZE : Nat := 2

/-- `BH_LEN_SIZE = sizeof(uint32_t)` (line 19). -/
def BH_LEN_SIZE : Nat := 4

/-- `BH_DIGEST_SIZE`: size of one hashed key in bytes (line 22). -/
def BH_DIGEST_SIZE : Nat := 8

/-- `BH_INDEX_SIZE`: size of one index level (line 25). -/
def BH_INDEX_SIZE : Nat := 16

/-- The result codes defined by the header, in declaration order:
`BH_ERR`, `BH_OK`, `BH_ADD`, `BH_REPLACE` (lines 31-37). -/
def statusCodes : List Nat := [BH_ERR, BH_OK, BH_ADD, BH_REPLACE]

/-- A `Nat` received through a `BH_KLEN_T = uint16_t` parameter is
reduced modulo `2 ^ 16`. -/
def toKlen (n : Nat) : Nat := n % 2 ^ 16

/-- A `Nat` received through a `BH_LEN_T = uint32_t` parameter is
reduced modulo `2 ^ 32`. -/
def toVlen (n : Nat) : Nat := n % 2 ^ 32

/-- The DJB2 rolling hash of `digestKey` (lines 208-211): `hash`
starts at 5381 and each key byte steps it by
`hash = ((hash << 5) + hash) + byte`, in `uint32_t` arithmetic. -/
def djb2 (key : List Nat) : Nat :=
  key.foldl (fun h b => (h * 33 + b) % 2 ^ 32) 5381

/-- `Hash::digestKey` (lines 205-223).  The 32-bit hash is written
into bytes 0-3 of the digest through a `uint32_t*` cast (little-endian
byte order, so byte `i` is `hash / 256 ^ i % 256`); bytes 4-7 are then
set to the low nibbles of bytes 0-3, and bytes 0-3 are divided by 16,
leaving their high nibbles. -/
def digestKey (key : List Nat) : List Nat :=
  let hash := djb2 key
  let d0 := hash % 256
  let d1 := hash / 256 % 256
  let d2 := hash / 65536 % 256
  let d3 := hash / 16777216 % 256
  [d0 / 16, d1 / 16, d2 / 16, d3 / 16, d0 % 16, d1 % 16, d2 % 16, d3 % 16]

lemma digestKey_length (key : List Nat) : (digestKey key).length = 8 := rfl

lemma digestKey_all_lt (key : List Nat) : ∀ x ∈ digestKey key, x < 16 := by
  intro x hx
  simp only [digestKey, List.mem_cons, List.not_mem_nil, or_false] at hx
  rcases hx with h | h | h | h | h | h | h | h <;> subst h <;> omega

/-- Claim C2: for every key within the 16-bit length bound, `digestKey`
computes the 32-bit DJB2 rolling hash (seed 5381, step
`hash = hash * 33 + byte` over the key bytes in order) and emits 8
symbols: symbols 0-3 are the high nibbles (bits 4-7) of bytes 0-3 of
the 32-bit value in its native (little-endian) construction order, and
symbols 4-7 are the corresponding low nibbles (bits 0-3). -/
theorem digestKey_nibble_decomposition (key ks : List Nat) (b : Nat)
    (hb : ∀ x ∈ key, x < 256) (hl : key.length ≤ 65535) :
    digestKey key =
      [djb2 key / 2 ^ 4 % 16, djb2 key / 2 ^ 12 % 16,
       djb2 key / 2 ^ 20 % 16, djb2 key / 2 ^ 28 % 16,
       djb2 key % 16, djb2 key / 2 ^ 8 % 16,
       djb2 key / 2 ^ 16 % 16, djb2 key / 2 ^ 24 % 16] ∧
    djb2 [] = 5381 ∧
    djb2 (ks ++ [b]) = (djb2 ks * 33 + b) % 2 ^ 32 := by
  refine ⟨?_, rfl, ?_⟩
  · simp only [digestKey, List.cons.injEq, and_true]
    generalize djb2 key = h
    norm_num
    omega
  · simp [djb2, List.foldl_append]

theorem digestKey_nibble_decomposition_check :
    (∀ x ∈ ([104, 105] : List Nat), x < 256) ∧
    ([104, 105] : List Nat).length ≤ 65535 ∧
    (digestKey [104, 105] =
      [djb2 [104, 105] / 2 ^ 4 % 16, djb2 [104, 105] / 2 ^ 12 % 16,
       djb2 [104, 105] / 2 ^ 20 % 16, djb2 [104, 105] / 2 ^ 28 % 16,
       djb2 [104, 105] % 16, djb2 [104, 105] / 2 ^ 8 % 16,
       djb2 [104, 105] / 2 ^ 16 % 16, djb2 [104, 105] / 2 ^ 24 % 16] ∧
     djb2 [] = 5381 ∧
     djb2 ([7] ++ [9]) = (djb2 [7] * 33 + 9) % 2 ^ 32) :=
  ⟨by decide, by decide,
   digestKey_nibble_decomposition [104, 105] [7] 9 (by decide) (by decide)⟩

/-- Claim C8: every symbol produced by `digestKey` lies in `[0, 16)`,
and the digest has exactly `BH_DIGEST_SIZE = 8` symbols, so a digest
symbol is always a valid index into the `BH_INDEX_SIZE = 16` slots of
an index node. -/
theorem digestKey_symbols_bounded (key : List Nat) (s : Nat)
    (hs : s ∈ digestKey key) :
    s < 16 ∧ (digestKey key).length = BH_DIGEST_SIZE ∧ BH_INDEX_SIZE = 16 :=
  ⟨digestKey_all_lt key s hs, digestKey_length key, rfl⟩

theorem digestKey_symbols_bounded_check :
    (5 ∈ digestKey []) ∧
    (5 < 16 ∧ (digestKey []).length = BH_DIGEST_SIZE ∧ BH_INDEX_SIZE = 16) :=
  ⟨by decide, digestKey_symbols_bounded [] 5 (by decide)⟩

/-- Claim C10: `digestKey` accepts the empty key; the rolling-hash loop
runs zero times, so the digest of the empty key is exactly the nibble
decomposition of the seed value 5381. -/
theorem digestKey_empty_key :
    djb2 [] = 5381 ∧
    digestKey [] = [0, 1, 0, 0, 5, 5, 0, 0] ∧
    digestKey [] =
      [5381 / 2 ^ 4 % 16, 5381 / 2 ^ 12 % 16, 5381 / 2 ^ 20 % 16,
       5381 / 2 ^ 28 % 16, 5381 % 16, 5381 / 2 ^ 8 % 16,
       5381 / 2 ^ 16 % 16, 5381 / 2 ^ 24 % 16] := by
  refine ⟨rfl, by decide, by decide⟩

/-- Little-endian byte encoding of `n` in `w` bytes, as a `uint16_t`
or `uint32_t` store into unaligned memory produces on the modelled
target. -/
def leBytes : Nat → Nat → List Nat
  | 0, _ => []
  | w + 1, n => n % 256 :: leBytes w (n / 256)

/-- Little-endian read of `w` bytes from the front of `d`, as the
`uint16_t*` / `uint32_t*` casts in the bucket accessors produce. -/
def readLE : Nat → List Nat → Nat
  | 0, _ => 0
  | w + 1, d => d.headD 0 + 256 * readLE w d.tail

/-- An entry blob laid out as `[keyLength][keyBytes][valueLength][valueBytes]`
with a 2-byte key length and a 4-byte value length, the layout documented
for `Bucket::data` and consumed by the accessors (lines 181-203). -/
def mkBucketData (key value : List Nat) : List Nat :=
  leBytes BH_KLEN_SIZE key.length ++ key ++ leBytes BH_LEN_SIZE value.length ++ value

/-- `Hash::bucketGetKeyLength` (lines 181-185): reads the leading
`BH_KLEN_T` of the blob. -/
def bucketGetKeyLength (bucketData : List Nat) : Nat :=
  readLE BH_KLEN_SIZE bucketData

/-- `Hash::bucketGetKey` (lines 187-190): the key bytes start at offset
`BH_KLEN_SIZE`; the pointer is modelled as the suffix of the blob from
that offset. -/
def bucketGetKey (bucketData : List Nat) : List Nat :=
  bucketData.drop BH_KLEN_SIZE

/-- `Hash::bucketGetContentLength` (lines 192-197): reads the `BH_LEN_T`
at offset `BH_KLEN_SIZE + keyLength`. -/
def bucketGetContentLength (bucketData : List Nat) : Nat :=
  readLE BH_LEN_SIZE (bucketData.drop (BH_KLEN_SIZE + bucketGetKeyLength bucketData))

/-- `Hash::bucketGetContent` (lines 199-203): the value bytes start at
offset `BH_KLEN_SIZE + keyLength + BH_LEN_SIZE`. -/
def bucketGetContent (bucketData : List Nat) : List Nat :=
  bucketData.drop (BH_KLEN_SIZE + bucketGetKeyLength bucketData + BH_LEN_SIZE)

/-- `Hash::bucketKeyEquals` (lines 173-179): 0 when the lengths differ,
otherwise the negation of `memcmp` over `keyLength` bytes. -/
def bucketKeyEquals (bucketData key : List Nat) (keyLength : Nat) : Nat :=
  let bucketKeyLength := bucketGetKeyLength bucketData
  if keyLength ≠ bucketKeyLength then 0
  else if (bucketData.drop BH_KLEN_SIZE).take keyLength = key.take keyLength then 1
  else 0

lemma leBytes_length (w n : Nat) : (leBytes w n).length = w := by
  induction w generalizing n with
  | zero => rfl
  | succ w ih => simp [leBytes, ih]

lemma readLE_leBytes (w : Nat) :
    ∀ (n : Nat) (rest : List Nat), n < 256 ^ w →
      readLE w (leBytes w n ++ rest) = n := by
  induction w with
  | zero =>
    intro n rest hn
    norm_num at hn
    simp [readLE, hn]
  | succ w ih =>
    intro n rest hn
    have hdiv : n / 256 < 256 ^ w := by
      rw [Nat.div_lt_iff_lt_mul (by norm_num)]
      calc n < 256 ^ (w + 1) := hn
        _ = 256 ^ w * 256 := by rw [Nat.pow_succ]
    simp only [leBytes, readLE, List.cons_append, List.headD_cons, List.tail_cons,
      ih (n / 256) rest hdiv]
    omega

lemma mkBucketData_drop_klen (key value : List Nat) :
    (mkBucketData key value).drop BH_KLEN_SIZE =
      key ++ (leBytes BH_LEN_SIZE value.length ++ value) := by
  simp only [mkBucketData, List.append_assoc]
  exact List.drop_left' (leBytes_length BH_KLEN_SIZE key.length)

/-- Claim C6: the blob accessors recover exactly the stored fields of
an entry laid out as `[keyLength][keyBytes][valueLength][valueBytes]`:
`bucketGetKeyLength` returns the key length, `bucketGetKey` addresses
the key bytes, `bucketGetContentLength` returns the value length, and
`bucketGetContent` addresses the value bytes. -/
theorem bucket_accessors_roundtrip (key value : List Nat)
    (hk : key.length < 2 ^ 16) (hv : value.length < 2 ^ 32) :
    bucketGetKeyLength (mkBucketData key value) = key.length ∧
    (bucketGetKey (mkBucketData key value)).take key.length = key ∧
    bucketGetContentLength (mkBucketData key value) = value.length ∧
    bucketGetContent (mkBucketData key value) = value := by
  have hkl : bucketGetKeyLength (mkBucketData key value) = key.length := by
    unfold bucketGetKeyLength mkBucketData
    simp only [List.append_assoc]
    exact readLE_leBytes BH_KLEN_SIZE key.length _ hk
  have hdrop2 : (mkBucketData key value).drop BH_KLEN_SIZE =
      key ++ (leBytes BH_LEN_SIZE value.length ++ value) :=
    mkBucketData_drop_klen key value
  have hdropk : (mkBucketData key value).drop (BH_KLEN_SIZE + key.length) =
      leBytes BH_LEN_SIZE value.length ++ value := by
    rw [← List.drop_drop, hdrop2, List.drop_left]
  refine ⟨hkl, ?_, ?_, ?_⟩
  · simp only [bucketGetKey]
    rw [hdrop2, List.take_left]
  · simp only [bucketGetContentLength]
    rw [hkl, hdropk]
    exact readLE_leBytes BH_LEN_SIZE value.length _ hv
  · simp only [bucketGetContent]
    rw [hkl, ← List.drop_drop, hdropk]
    exact List.drop_left' (leBytes_length BH_LEN_SIZE value.length)

theorem bucket_accessors_roundtrip_check :
    ([7, 8] : List Nat).length < 2 ^ 16 ∧ ([1, 2, 3] : List Nat).length < 2 ^ 32 ∧
    (bucketGetKeyLength (mkBucketData [7, 8] [1, 2, 3]) = ([7, 8] : List Nat).length ∧
     (bucketGetKey (mkBucketData [7, 8] [1, 2, 3])).take ([7, 8] : List Nat).length = [7, 8] ∧
     bucketGetContentLength (mkBucketData [7, 8] [1, 2, 3]) = ([1, 2, 3] : List Nat).length ∧
     bucketGetContent (mkBucketData [7, 8] [1, 2, 3]) = [1, 2, 3]) :=
  ⟨by decide, by decide, bucket_accessors_roundtrip [7, 8] [1, 2, 3] (by decide) (by decide)⟩

/-- Claim C7: `bucketKeyEquals` returns a nonzero result exactly when
the probe key length equals the stored key length and the key bytes
match at every position. -/
theorem bucketKeyEquals_iff (bkey bvalue probe : List Nat) (keyLength : Nat)
    (hb : bkey.length < 2 ^ 16) (hp : probe.length = keyLength) :
    bucketKeyEquals (mkBucketData bkey bvalue) probe keyLength ≠ 0 ↔
      keyLength = bkey.length ∧ probe = bkey := by
  have hkl : bucketGetKeyLength (mkBucketData bkey bvalue) = bkey.length := by
    unfold bucketGetKeyLength mkBucketData
    simp only [List.append_assoc]
    exact readLE_leBytes BH_KLEN_SIZE bkey.length _ hb
  simp only [bucketKeyEquals]
  rw [hkl, mkBucketData_drop_klen]
  by_cases hlen : keyLength = bkey.length
  · subst hlen
    rw [if_neg (by omega)]
    split_ifs with h2
    · have hpb : probe = bkey := by
        rwa [List.take_left, ← hp, List.take_length, eq_comm] at h2
      simp [hpb]
    · have hpb : ¬ probe = bkey := by
        intro he
        apply h2
        rw [he, List.take_left, List.take_length]
      simp [hpb]
  · rw [if_pos hlen]
    simp [hlen]

theorem bucketKeyEquals_iff_check :
    ([7, 8] : List Nat).length < 2 ^ 16 ∧ ([7, 8] : List Nat).length = 2 ∧
    (bucketKeyEquals (mkBucketData [7, 8] [9]) [7, 8] 2 ≠ 0 ↔
      2 = ([7, 8] : List Nat).length ∧ [7, 8] = [7, 8]) :=
  ⟨by decide, by decide, bucketKeyEquals_iff [7, 8] [9] [7, 8] 2 (by decide) (by decide)⟩

/-- One key/value record of the table.  The C `Bucket` stores its key
and value inside the `data` blob (see `mkBucketData`); for the trie
model the fields are kept abstract, as the specification describes
them. -/
structure Entry where
  key : List Nat
  val : List Nat
  flags : Nat
deriving DecidableEq

/-- A `Tag` is either an `Index` (16 slots, each `NULL`, a nested tag)
or a bucket chain (`Bucket` with its `next` links, modelled as the list
of entries of the chain).  An empty slot is `none`. -/
inductive Node where
  | idx (slots : Fin 16 → Option Node)
  | chain (entries : List Entry)

/-- `Stats` (lines 48-62): the four counters, all zero-initialised. -/
structure Stats where
  numKeys : Nat
  indexSize : Nat
  metaSize : Nat
  dataSize : Nat
deriving DecidableEq

/-- `Response` (lines 64-78): result code, flags, content reference
(modelled as the referenced bytes, `NULL` as `[]`) and length. -/
structure Response where
  result : Nat
  flags : Nat
  content : List Nat
  contentLength : Nat
deriving DecidableEq

/-- `sizeof(Index)` on the modelled LP64 little-endian target: the
one-byte `Tag::type` padded to pointer alignment, then 16 pointers. -/
def sizeofIndex : Nat := 136

/-- `Index::Index` (lines 92-95): a fresh index node with all 16 slots
`NULL`. -/
def emptyIndex : Node := Node.idx (fun _ => none)

/-- `Hash::init` (lines 152-156): fresh root index, fresh zeroed stats,
then `stats->indexSize += sizeof(Index)`. -/
def initStats : Stats :=
  { numKeys := 0, indexSize := 0 + sizeofIndex, metaSize := 0, dataSize := 0 }

/-- The `Hash` table object (lines 115-122). -/
structure Hash where
  index : Node
  stats : Stats
  maxBuckets : Nat
  reindexScatter : Nat

/-- `Hash::Hash()` (lines 124-128): defaults `maxBuckets = 16`,
`reindexScatter = 1`, then `init()`. -/
def hashNew0 : Hash :=
  { index := emptyIndex, stats := initStats, maxBuckets := 16, reindexScatter := 1 }

/-- `Hash::Hash(newMaxBuckets)` (lines 130-135): clamp `maxBuckets` up
to 1, `reindexScatter = 1`, then `init()`.  The `unsigned char`
argument is within `0..255`. -/
def hashNew1 (newMaxBuckets : Nat) : Hash :=
  { index := emptyIndex, stats := initStats,
    maxBuckets := if newMaxBuckets < 1 then 1 else newMaxBuckets,
    reindexScatter := 1 }

/-- `Hash::Hash(newMaxBuckets, newReindexScatter)` (lines 137-146):
clamp both up to 1, and reset `reindexScatter` to 1 if
`maxBuckets + reindexScatter` exceeds 256, then `init()`. -/
def hashNew2 (newMaxBuckets newReindexScatter : Nat) : Hash :=
  let mb := if newMaxBuckets < 1 then 1 else newMaxBuckets
  let rs := if newReindexScatter < 1 then 1 else newReindexScatter
  let rs2 := if 256 < mb + rs then 1 else rs
  { index := emptyIndex, stats := initStats, maxBuckets := mb, reindexScatter := rs2 }

/-- Claim C3: after construction, `maxBuckets` defaults to 16 and is
raised to 1 when supplied below 1; `reindexScatter` defaults to 1 and
is raised to 1 when supplied below 1; and when the clamped sum would
exceed 256, `reindexScatter` is reset to 1, so the sum never exceeds
256. -/
theorem hash_construction_config (m r : Nat) (hm : m ≤ 255) (hr : r ≤ 255) :
    hashNew0.maxBuckets = 16 ∧ hashNew0.reindexScatter = 1 ∧
    (hashNew1 m).reindexScatter = 1 ∧
    (m < 1 → (hashNew1 m).maxBuckets = 1) ∧
    (1 ≤ m → (hashNew1 m).maxBuckets = m) ∧
    (m < 1 → (hashNew2 m r).maxBuckets = 1) ∧
    (1 ≤ m → (hashNew2 m r).maxBuckets = m) ∧
    1 ≤ (hashNew2 m r).reindexScatter ∧
    (256 < (if m < 1 then 1 else m) + (if r < 1 then 1 else r) →
      (hashNew2 m r).reindexScatter = 1) ∧
    ((if m < 1 then 1 else m) + (if r < 1 then 1 else r) ≤ 256 →
      1 ≤ r → (hashNew2 m r).reindexScatter = r) ∧
    (hashNew2 m r).maxBuckets + (hashNew2 m r).reindexScatter ≤ 256 := by
  simp only [hashNew0, hashNew1, hashNew2]
  split_ifs <;> simp_all <;> omega

theorem hash_construction_config_check :
    (0 : Nat) ≤ 255 ∧ (255 : Nat) ≤ 255 ∧
    (hashNew0.maxBuckets = 16 ∧ hashNew0.reindexScatter = 1 ∧
     (hashNew1 0).reindexScatter = 1 ∧
     ((0 : Nat) < 1 → (hashNew1 0).maxBuckets = 1) ∧
     ((1 : Nat) ≤ 0 → (hashNew1 0).maxBuckets = 0) ∧
     ((0 : Nat) < 1 → (hashNew2 0 255).maxBuckets = 1) ∧
     ((1 : Nat) ≤ 0 → (hashNew2 0 255).maxBuckets = 0) ∧
     1 ≤ (hashNew2 0 255).reindexScatter ∧
     (256 < (if (0 : Nat) < 1 then 1 else 0) + (if (255 : Nat) < 1 then 1 else 255) →
       (hashNew2 0 255).reindexScatter = 1) ∧
     ((if (0 : Nat) < 1 then 1 else 0) + (if (255 : Nat) < 1 then 1 else 255) ≤ 256 →
       (1 : Nat) ≤ 255 → (hashNew2 0 255).reindexScatter = 255) ∧
     (hashNew2 0 255).maxBuckets + (hashNew2 0 255).reindexScatter ≤ 256) :=
  ⟨by decide, by decide, hash_construction_config 0 255 (by decide) (by decide)⟩

/-- Claim C9: immediately after construction (any of the three
constructors) the root index node exists with all 16 slots `NULL`, and
the statistics read `numKeys = 0`, `metaSize = 0`, `dataSize = 0`, and
`indexSize` equal to the structural size of exactly one `Index` node,
which is not zero. -/
theorem fresh_table_state (m r : Nat) :
    (∃ slots, hashNew0.index = Node.idx slots ∧ ∀ s : Fin 16, slots s = none) ∧
    (hashNew1 m).index = hashNew0.index ∧
    (hashNew2 m r).index = hashNew0.index ∧
    hashNew0.stats.numKeys = 0 ∧
    hashNew0.stats.metaSize = 0 ∧
    hashNew0.stats.dataSize = 0 ∧
    hashNew0.stats.indexSize = 1 * sizeofIndex ∧
    (hashNew1 m).stats = hashNew0.stats ∧
    (hashNew2 m r).stats = hashNew0.stats ∧
    0 < sizeofIndex :=
  ⟨⟨fun _ => none, rfl, fun _ => rfl⟩, rfl, rfl, rfl, rfl, rfl,
   by norm_num [initStats, hashNew0], rfl, rfl, by norm_num [sizeofIndex]⟩

/-- Claim C4 counterexample: a call of `store` with key length 65536 or
value length `2 ^ 32` is impossible as claimed — the `BH_KLEN_T`
(`uint16_t`) and `BH_LEN_T` (`uint32_t`) parameters reduce those
lengths to 0, so such a call is a length-0 store; moreover the header
defines only three distinct result codes (`BH_ERR = 0`,
`BH_OK = BH_ADD = 1`, `BH_REPLACE = 2`), so no distinct `KeyTooLong` /
`ValueTooLong` / `AllocationFailure` / `EmptyTable` / `EndOfSequence`
status values exist. -/
theorem store_bounds_unrepresentable :
    toKlen 65536 = 0 ∧ toKlen 65536 ≠ 65536 ∧
    toVlen (2 ^ 32) = 0 ∧ toVlen (2 ^ 32) ≠ 2 ^ 32 ∧
    statusCodes.dedup = [0, 1, 2] := by decide

/-- Claim C4 amended: key lengths above 65535 and value lengths above
`2 ^ 32 - 1` are unrepresentable in the `store` parameter types — a
nominal key length of 65536 (value length of `2 ^ 32`) arrives reduced
to 0 — and the only explicit statuses the header defines are
`BH_ERR = 0`, `BH_OK = BH_ADD = 1` and `BH_REPLACE = 2`; errors are
surfaced as the single status `BH_ERR`, not as a six-way error
taxonomy. -/
theorem store_bounds_amended :
    toKlen 65536 = toKlen 0 ∧ toVlen (2 ^ 32) = toVlen 0 ∧
    BH_ERR = 0 ∧ BH_OK = 1 ∧ BH_ADD = 1 ∧ BH_REPLACE = 2 ∧
    BH_OK = BH_ADD ∧ statusCodes = [0, 1, 1, 2] ∧
    statusCodes.dedup.length = 3 := by decide

/-- Claim C5 counterexample: the four result statuses are not pairwise
distinct — `BH_OK` and `BH_ADD` are both 1. -/
theorem result_codes_not_distinct :
    ¬(BH_ERR ≠ BH_OK ∧ BH_ERR ≠ BH_ADD ∧ BH_ERR ≠ BH_REPLACE ∧
      BH_OK ≠ BH_ADD ∧ BH_OK ≠ BH_REPLACE ∧ BH_ADD ≠ BH_REPLACE) := by decide

/-! ### The store / fetch walk

`Hash::store` and `Hash::fetch` are declared in src/MegaHash.h
(lines 159-160) but their bodies live in a translation unit that is
not part of this repository snapshot, so the walk is modelled from the
specification (sections 4.2-4.4). -/

/-- A digest symbol indexes one of the 16 slots of an index node; the
`unsigned char` symbol is reduced into `Fin 16` (digest symbols are
always below 16, see `digestKey_all_lt`). -/
def slotIdx (d : Nat) : Fin 16 := ⟨d % 16, Nat.mod_lt d (by omega)⟩

/-- Pointwise update of the 16 slots of an index node. -/
def updSlots (slots : Fin 16 → Option Node) (i : Fin 16) (v : Option Node) :
    Fin 16 → Option Node :=
  fun j => if j = i then v else slots j

/-- Modelled from the spec: the linear chain scan of store/fetch
("linearly scan for an entry whose key bytes equal the given key",
section 4.2); the body of `Hash::traverseTag` is not in src/. -/
def scanChain (c : List Entry) (key : List Nat) : Option Entry :=
  c.find? (fun o => decide (o.key = key))

/-- Modelled from the spec: in-place value-and-flags replacement of
the matching entry of a chain (section 4.2, "replace its value bytes
(and flags) in place"); the body of `Hash::store` is not in src/. -/
def replaceInChain (c : List Entry) (e : Entry) : List Entry :=
  c.map (fun o => if o.key = e.key then { o with val := e.val, flags := e.flags } else o)

/-- The next digest symbol of an entry when `k` digest symbols remain
to be consumed (the entry digest has `BH_DIGEST_SIZE = 8` symbols, of
which `8 - k` are already consumed). -/
def symOf (e : Entry) (k : Nat) : Nat :=
  ((digestKey e.key).drop (8 - k)).headD 0

/-- Modelled from the spec: reindexing (section 4.4); the body of
`Hash::reindexBucket` is not in src/.  An overlong chain reached with
`rem` digest symbols still unconsumed is converted into an index node
whose slot `s` receives the sub-chain of entries whose next digest
symbol is `s` (order preserved); a sub-chain that itself exceeds
`maxBuckets` cascades while symbols remain. -/
def reindexChain (mb : Nat) : List Nat → List Entry → Node
  | [], c => Node.chain c
  | _ :: rest, c =>
    Node.idx (fun s =>
      let sub := c.filter (fun o => decide (symOf o (rest.length + 1) = s.val))
      if sub.isEmpty then none
      else if mb < sub.length ∧ rest ≠ [] then some (reindexChain mb rest sub)
      else some (Node.chain sub))

/-- Modelled from the spec: the store walk (section 4.2); the body of
`Hash::store` is not in src/.  Descends one digest symbol per index
level; an empty slot receives a fresh one-entry chain (`BH_ADD`); on a
chain, a matching entry is replaced (`BH_REPLACE`), otherwise the new
entry is appended (`BH_ADD`) and the chain is reindexed when its
length now exceeds `maxBuckets` and digest symbols remain.  Reaching
an index node with no symbols left cannot happen on a well-formed
tree (`WFNode`) and reports `BH_ERR`. -/
def storeNode (mb : Nat) (e : Entry) : List Nat → Node → Node × Nat
  | rem, Node.chain c =>
    if (scanChain c e.key).isSome then
      (Node.chain (replaceInChain c e), BH_REPLACE)
    else if mb < (c ++ [e]).length ∧ rem ≠ [] then
      (reindexChain mb rem (c ++ [e]), BH_ADD)
    else (Node.chain (c ++ [e]), BH_ADD)
  | [], Node.idx slots => (Node.idx slots, BH_ERR)
  | d :: rest, Node.idx slots =>
    match slots (slotIdx d) with
    | none =>
      (Node.idx (updSlots slots (slotIdx d) (some (Node.chain [e]))), BH_ADD)
    | some sub =>
      let r := storeNode mb e rest sub
      (Node.idx (updSlots slots (slotIdx d) (some r.1)), r.2)

/-- Modelled from the spec: the fetch walk (section 4.3); the body of
`Hash::fetch` is not in src/.  Identical descent to `storeNode`, no
mutation. -/
def fetchNode (key : List Nat) : List Nat → Node → Option Entry
  | _, Node.chain c => scanChain c key
  | [], Node.idx _ => none
  | d :: rest, Node.idx slots =>
    match slots (slotIdx d) with
    | none => none
    | some sub => fetchNode key rest sub

/-- Well-formedness of a node reached with `k` digest symbols still
unconsumed: index nodes only occur while symbols remain (the trie has
maximum depth 8, section 3).  The freshly constructed root satisfies
`WFNode 8`. -/
def WFNode : Nat → Node → Prop
  | _, Node.chain _ => True
  | 0, Node.idx _ => False
  | k + 1, Node.idx slots => ∀ (s : Fin 16) (n : Node), slots s = some n → WFNode k n

/-- Modelled from the spec: `Hash::store` (section 4.2, declared at
line 159).  Digests the key, walks the trie, and reports the walk
status; `numKeys` is bumped on an add. -/
def Hash.store (h : Hash) (key content : List Nat) (flags : Nat) : Hash × Response :=
  let r := storeNode h.maxBuckets ⟨key, content, flags⟩ (digestKey key) h.index
  let st := h.stats
  let st2 := if r.2 = BH_REPLACE then st else { st with numKeys := st.numKeys + 1 }
  ({ h with index := r.1, stats := st2 },
   { result := r.2, flags := flags, content := [], contentLength := 0 })

/-- Modelled from the spec: `Hash::fetch` (section 4.3, declared at
line 160).  On a hit the response borrows the entry value bytes and
carries their length with status `BH_OK`; on a miss the response is
`BH_ERR` with `NULL` content and length 0. -/
def Hash.fetch (h : Hash) (key : List Nat) : Response :=
  match fetchNode key (digestKey key) h.index with
  | none => { result := BH_ERR, flags := 0, content := [], contentLength := 0 }
  | some o => { result := BH_OK, flags := o.flags, content := o.val, contentLength := o.val.length }

lemma updSlots_self (slots : Fin 16 → Option Node) (i : Fin 16) (v : Option Node) :
    updSlots slots i v i = v := by
  simp [updSlots]

lemma storeNode_chain (mb : Nat) (e : Entry) (rem : List Nat) (c : List Entry) :
    storeNode mb e rem (Node.chain c) =
      if (scanChain c e.key).isSome then (Node.chain (replaceInChain c e), BH_REPLACE)
      else if mb < (c ++ [e]).length ∧ rem ≠ [] then
        (reindexChain mb rem (c ++ [e]), BH_ADD)
      else (Node.chain (c ++ [e]), BH_ADD) := by
  cases rem <;> rfl

lemma storeNode_idx (mb : Nat) (e : Entry) (d : Nat) (rest : List Nat)
    (slots : Fin 16 → Option Node) :
    storeNode mb e (d :: rest) (Node.idx slots) =
      match slots (slotIdx d) with
      | none =>
        (Node.idx (updSlots slots (slotIdx d) (some (Node.chain [e]))), BH_ADD)
      | some sub =>
        (Node.idx (updSlots slots (slotIdx d) (some (storeNode mb e rest sub).1)),
         (storeNode mb e rest sub).2) := rfl

lemma fetchNode_chain (key rem : List Nat) (c : List Entry) :
    fetchNode key rem (Node.chain c) = scanChain c key := by
  cases rem <;> rfl

lemma fetchNode_idx (key : List Nat) (d : Nat) (rest : List Nat)
    (slots : Fin 16 → Option Node) :
    fetchNode key (d :: rest) (Node.idx slots) =
      match slots (slotIdx d) with
      | none => none
      | some sub => fetchNode key rest sub := rfl

lemma reindexChain_cons (mb : Nat) (d : Nat) (rest : List Nat) (c : List Entry) :
    reindexChain mb (d :: rest) c =
      Node.idx (fun s =>
        let sub := c.filter (fun o => decide (symOf o (rest.length + 1) = s.val))
        if sub.isEmpty then none
        else if mb < sub.length ∧ rest ≠ [] then some (reindexChain mb rest sub)
        else some (Node.chain sub)) := rfl

lemma find?_filter {α : Type} (p q : α → Bool) :
    ∀ l : List α, (∀ a, q a = true → p a = true) →
      (l.filter p).find? q = l.find? q := by
  intro l h
  induction l with
  | nil => rfl
  | cons a t ih =>
    cases hp : p a with
    | true =>
      cases hq : q a with
      | true => simp [List.filter_cons, hp, List.find?_cons, hq]
      | false => simp [List.filter_cons, hp, List.find?_cons, hq, ih]
    | false =>
      have hq : q a = false := by
        cases hq2 : q a
        · rfl
        · exact absurd (h a hq2) (by simp [hp])
      simp [List.filter_cons, hp, List.find?_cons, hq, ih]

lemma scanChain_append_self (c : List Entry) (e : Entry)
    (h : scanChain c e.key = none) :
    scanChain (c ++ [e]) e.key = some e := by
  induction c with
  | nil =>
    simp only [scanChain, List.nil_append]
    rw [List.find?_cons_of_pos _ (by simp)]
  | cons a t ih =>
    simp only [scanChain, List.cons_append] at h ⊢
    by_cases ha : a.key = e.key
    · rw [List.find?_cons_of_pos _ (by simp [ha])] at h
      exact absurd h (by simp)
    · rw [List.find?_cons_of_neg _ (by simp [ha])] at h ⊢
      exact ih h

lemma scanChain_replaceInChain (c : List Entry) (k v : List Nat) (fl : Nat)
    (h : (scanChain c k).isSome) :
    scanChain (replaceInChain c ⟨k, v, fl⟩) k = some ⟨k, v, fl⟩ := by
  induction c with
  | nil => simp [scanChain] at h
  | cons a t ih =>
    by_cases ha : a.key = k
    · simp [scanChain, replaceInChain, List.find?_cons, ha]
    · have h2 : (scanChain t k).isSome := by
        simpa [scanChain, List.find?_cons, ha] using h
      simpa [scanChain, replaceInChain, List.find?_cons, ha] using ih h2

lemma drop_eq_cons_succ {α : Type} {l : List α} {j : Nat} {d : α} {t : List α}
    (h : l.drop j = d :: t) : l.drop (j + 1) = t := by
  rw [← List.drop_drop, h]
  rfl

lemma fetchNode_reindexChain (mb : Nat) (key : List Nat) :
    ∀ (rem : List Nat) (c : List Entry),
      rem = (digestKey key).drop (8 - rem.length) →
      rem.length ≤ 8 → rem ≠ [] →
      fetchNode key rem (reindexChain mb rem c) = scanChain c key := by
  intro rem
  induction rem with
  | nil => intro c _ _ hne; exact absurd rfl hne
  | cons d rest ih =>
    intro c hdrop hlen _
    have hdropj : (digestKey key).drop (8 - (rest.length + 1)) = d :: rest := by
      simpa using hdrop.symm
    have hd16 : d < 16 := by
      refine digestKey_all_lt key d ?_
      exact List.drop_subset (8 - (rest.length + 1)) (digestKey key)
        (by rw [hdropj]; exact List.mem_cons_self d rest)
    have hval : (slotIdx d).val = d := by
      simp [slotIdx, Nat.mod_eq_of_lt hd16]
    have hrest : rest = (digestKey key).drop (8 - rest.length) := by
      have h1 := drop_eq_cons_succ hdropj
      have h2 : 8 - (rest.length + 1) + 1 = 8 - rest.length := by
        simp only [List.length_cons] at hlen
        omega
      rw [h2] at h1
      exact h1.symm
    have hsym : ∀ o : Entry, o.key = key → symOf o (rest.length + 1) = d := by
      intro o ho
      simp only [symOf, ho]
      rw [hdropj]
      rfl
    rw [reindexChain_cons, fetchNode_idx]
    simp only [hval]
    have hscan : scanChain (c.filter (fun o => decide (symOf o (rest.length + 1) = d))) key
        = scanChain c key := by
      unfold scanChain
      refine find?_filter _ _ c ?_
      intro o ho
      have ho2 : o.key = key := of_decide_eq_true ho
      simp [hsym o ho2]
    set q := c.filter (fun o => decide (symOf o (rest.length + 1) = d)) with hq
    by_cases hemp : q.isEmpty = true
    · rw [if_pos hemp]
      have hqnil : q = [] := List.isEmpty_iff.mp hemp
      rw [← hscan, hqnil]
      rfl
    · rw [if_neg hemp]
      by_cases hcasc : mb < q.length ∧ rest ≠ []
      · rw [if_pos hcasc]
        calc fetchNode key rest (reindexChain mb rest q)
            = scanChain q key := ih q hrest (by simp only [List.length_cons] at hlen; omega) hcasc.2
          _ = scanChain c key := hscan
      · rw [if_neg hcasc]
        calc fetchNode key rest (Node.chain q)
            = scanChain q key := fetchNode_chain key rest q
          _ = scanChain c key := hscan

lemma fetchNode_storeNode (mb : Nat) (e : Entry) :
    ∀ (rem : List Nat) (n : Node),
      WFNode rem.length n →
      rem = (digestKey e.key).drop (8 - rem.length) →
      rem.length ≤ 8 →
      fetchNode e.key rem (storeNode mb e rem n).1 = some ⟨e.key, e.val, e.flags⟩ := by
  intro rem
  induction rem with
  | nil =>
    intro n hwf hdrop _
    cases n with
    | idx slots => exact absurd hwf (by simp [WFNode])
    | chain c =>
      rw [storeNode_chain]
      by_cases hs : (scanChain c e.key).isSome = true
      · rw [if_pos hs]
        calc fetchNode e.key [] (Node.chain (replaceInChain c e))
            = scanChain (replaceInChain c e) e.key := fetchNode_chain _ _ _
          _ = some ⟨e.key, e.val, e.flags⟩ := scanChain_replaceInChain c e.key e.val e.flags hs
      · rw [if_neg hs, if_neg (by simp)]
        have hnone : scanChain c e.key = none := by
          cases hsc : scanChain c e.key
          · rfl
          · exact absurd (by simp [hsc]) hs
        calc fetchNode e.key [] (Node.chain (c ++ [e]))
            = scanChain (c ++ [e]) e.key := fetchNode_chain _ _ _
          _ = some e := scanChain_append_self c e hnone
  | cons d rest ih =>
    intro n hwf hdrop hlen
    have hdropj : (digestKey e.key).drop (8 - (rest.length + 1)) = d :: rest := by
      simpa using hdrop.symm
    have hrest : rest = (digestKey e.key).drop (8 - rest.length) := by
      have h1 := drop_eq_cons_succ hdropj
      have h2 : 8 - (rest.length + 1) + 1 = 8 - rest.length := by
        simp only [List.length_cons] at hlen
        omega
      rw [h2] at h1
      exact h1.symm
    have hlen8 : rest.length ≤ 8 := by
      simp only [List.length_cons] at hlen
      omega
    cases n with
    | chain c =>
      rw [storeNode_chain]
      by_cases hs : (scanChain c e.key).isSome = true
      · rw [if_pos hs]
        calc fetchNode e.key (d :: rest) (Node.chain (replaceInChain c e))
            = scanChain (replaceInChain c e) e.key := fetchNode_chain _ _ _
          _ = some ⟨e.key, e.val, e.flags⟩ := scanChain_replaceInChain c e.key e.val e.flags hs
      · rw [if_neg hs]
        have hnone : scanChain c e.key = none := by
          cases hsc : scanChain c e.key
          · rfl
          · exact absurd (by simp [hsc]) hs
        by_cases hcasc : mb < (c ++ [e]).length ∧ (d :: rest) ≠ []
        · rw [if_pos hcasc]
          calc fetchNode e.key (d :: rest) (reindexChain mb (d :: rest) (c ++ [e]))
              = scanChain (c ++ [e]) e.key :=
                fetchNode_reindexChain mb e.key (d :: rest) (c ++ [e]) hdrop hlen (by simp)
            _ = some e := scanChain_append_self c e hnone
        · rw [if_neg hcasc]
          calc fetchNode e.key (d :: rest) (Node.chain (c ++ [e]))
              = scanChain (c ++ [e]) e.key := fetchNode_chain _ _ _
            _ = some e := scanChain_append_self c e hnone
    | idx slots =>
      rw [storeNode_idx]
      cases hslot : slots (slotIdx d) with
      | none =>
        calc fetchNode e.key (d :: rest)
              (Node.idx (updSlots slots (slotIdx d) (some (Node.chain [e]))))
            = fetchNode e.key rest (Node.chain [e]) := by
              rw [fetchNode_idx, updSlots_self]
          _ = scanChain [e] e.key := fetchNode_chain _ _ _
          _ = some e := by simp [scanChain, List.find?]
      | some sub =>
        have hwfsub : WFNode rest.length sub := hwf (slotIdx d) sub hslot
        calc fetchNode e.key (d :: rest)
              (Node.idx (updSlots slots (slotIdx d) (some (storeNode mb e rest sub).1)))
            = fetchNode e.key rest (storeNode mb e rest sub).1 := by
              rw [fetchNode_idx, updSlots_self]
          _ = some ⟨e.key, e.val, e.flags⟩ := ih sub hwfsub hrest hlen8

/-- Claim C1: for every key and value within the length bounds,
`fetch(key)` immediately after `store(key, value)` on any well-formed
table returns a result with `BH_OK` status whose content is
byte-for-byte equal to `value` and whose `contentLength` is the length
of `value`. -/
theorem store_then_fetch_roundtrip (h : Hash) (key value : List Nat) (flags : Nat)
    (hwf : WFNode 8 h.index)
    (hk : key.length ≤ 65535) (hv : value.length ≤ 2 ^ 32 - 1) :
    ((h.store key value flags).1.fetch key).result = BH_OK ∧
    ((h.store key value flags).1.fetch key).content = value ∧
    ((h.store key value flags).1.fetch key).contentLength = value.length := by
  have hmain : fetchNode key (digestKey key)
      (storeNode h.maxBuckets ⟨key, value, flags⟩ (digestKey key) h.index).1 =
      some ⟨key, value, flags⟩ := by
    refine fetchNode_storeNode h.maxBuckets ⟨key, value, flags⟩ (digestKey key) h.index
      ?_ ?_ ?_
    · rw [digestKey_length]
      exact hwf
    · rw [digestKey_length]
      simp
    · rw [digestKey_length]
  simp only [Hash.store, Hash.fetch]
  rw [hmain]
  exact ⟨rfl, rfl, rfl⟩

theorem store_then_fetch_roundtrip_check :
    WFNode 8 hashNew0.index ∧ ([104] : List Nat).length ≤ 65535 ∧
    ([49, 50] : List Nat).length ≤ 2 ^ 32 - 1 ∧
    (((hashNew0.store [104] [49, 50] 0).1.fetch [104]).result = BH_OK ∧
     ((hashNew0.store [104] [49, 50] 0).1.fetch [104]).content = [49, 50] ∧
     ((hashNew0.store [104] [49, 50] 0).1.fetch [104]).contentLength =
       ([49, 50] : List Nat).length) := by
  have hwf : WFNode 8 hashNew0.index := by
    intro s n hn
    simp [hashNew0, emptyIndex] at hn
  exact ⟨hwf, by decide, by decide,
    store_then_fetch_roundtrip hashNew0 [104] [49, 50] 0 hwf (by decide) (by decide)⟩

/-- Claim C5 amended: `BH_ERR`, `BH_ADD` and `BH_REPLACE` are pairwise
distinct, so a store caller distinguishes add from replace from error
by the result status alone, and `BH_ERR ≠ BH_OK` lets a fetch caller
distinguish ok from error; but `BH_OK` and `BH_ADD` are the same value
1, so the four named statuses are not pairwise distinct — only three
distinct values exist, disambiguated by which operation returned
them. -/
theorem result_codes_amended (h : Hash) (key : List Nat) :
    BH_ERR ≠ BH_ADD ∧ BH_ERR ≠ BH_REPLACE ∧ BH_ADD ≠ BH_REPLACE ∧
    BH_ERR ≠ BH_OK ∧ BH_OK ≠ BH_REPLACE ∧ BH_OK = BH_ADD ∧
    ((h.fetch key).result = BH_OK ∨ (h.fetch key).result = BH_ERR) := by
  refine ⟨by decide, by decide, by decide, by decide, by decide, rfl, ?_⟩
  cases hx : fetchNode key (digestKey key) h.index <;> simp [Hash.fetch, hx]

end MegaHash
